import Mathlib

/-!
Verification development for the statistics core of `hf_ecom_analyst`.

The embedded code is `src/mcp-server/var_stats.py` (the functions `anova`,
`tukey_test` and `embedding_clustering`) together with the centroid
operation invoked from `src/mcp-server/app.py` (`do_vector_centroid`).
Numeric values are modelled over `ℚ`; Python `int` samples over `ℤ`;
database rows are the ordered list returned by `read_only_query`.
External numeric libraries (scipy, statsmodels, scikit-learn, hdbscan) are
modelled at their interfaces: their validated input conditions and the
shape of their output are transcribed from their documented behaviour,
while the purely numeric kernels (the F-distribution tail, the studentized
range statistics, the t-SNE optimizer, the HDBSCAN condensed-tree search)
enter as explicit function parameters.
-/

namespace VarStats

/-- Python `int(x)` applied to a numeric value: truncation toward zero.
Models the coercion `age = int(age)` performed in `var_stats.py` lines
34-35 (inside `anova`) and lines 74-75 (inside `tukey_test`); on a value
that is already an integer the loop keeps it unchanged, which coincides
with truncation. -/
def pyInt (q : ℚ) : ℤ := q.num.tdiv q.den

/-- A raw row of the `SELECT * FROM table` result consumed by `anova` and
`tukey_test`: a `(product_type, age)` pair where the age column may be
NULL (`none`). -/
abbrev Row := String × Option ℚ

/-- One `categories[product_type].append(age)` step on a
`defaultdict(list)` represented as its insertion-ordered list of
`(key, values)` entries: append `v` to the entry of `k` if the key is
present, otherwise add a new entry `(k, [v])` at the end. -/
def addSample (k : String) (v : ℤ) : List (String × List ℤ) → List (String × List ℤ)
  | [] => [(k, [v])]
  | (k', vs) :: rest =>
      if k' = k then (k', vs ++ [v]) :: rest else (k', vs) :: addSample k v rest

/-- The accumulation loop of `anova` (var_stats.py lines 32-36): iterate
the rows in order, skip NULL ages, coerce the value with `int(...)` and
append it to its category. -/
def anovaCollect (G : List (String × List ℤ)) (rows : List Row) : List (String × List ℤ) :=
  rows.foldl (fun G r =>
    match r.2 with
    | none => G
    | some q => addSample r.1 (pyInt q) G) G

/-- `categories` as built by `anova` from the fetched rows. -/
def anovaCategories (rows : List Row) : List (String × List ℤ) :=
  anovaCollect [] rows

/-- `categories_filtered` of `anova` (var_stats.py lines 38-40): keep the
categories whose sample list is strictly longer than `min_sample_size`,
in unchanged order. -/
def anovaCategoriesFiltered (rows : List Row) (min_sample_size : ℕ) : List (String × List ℤ) :=
  (anovaCategories rows).filter (fun kv => decide (min_sample_size < kv.2.length))

/-- The accumulation loop of `tukey_test` (var_stats.py lines 72-76); the
source duplicates the loop of `anova` verbatim, and so does this
transcription. -/
def tukeyCollect (G : List (String × List ℤ)) (rows : List Row) : List (String × List ℤ) :=
  rows.foldl (fun G r =>
    match r.2 with
    | none => G
    | some q => addSample r.1 (pyInt q) G) G

/-- `categories` as built by `tukey_test` from the fetched rows. -/
def tukeyCategories (rows : List Row) : List (String × List ℤ) :=
  tukeyCollect [] rows

/-- `categories_filtered` of `tukey_test` (var_stats.py lines 78-80). -/
def tukeyCategoriesFiltered (rows : List Row) (min_sample_size : ℕ) : List (String × List ℤ) :=
  (tukeyCategories rows).filter (fun kv => decide (min_sample_size < kv.2.length))

/-- Error raised out of the `anova` pipeline.  `insufficientGroups`
models the `TypeError` that `scipy.stats.f_oneway` raises when it is
handed fewer than two sample groups ("at least two inputs are
required"). -/
inductive AnovaError
  | insufficientGroups
deriving DecidableEq

/-- `scipy.stats.f_oneway`, transcribed from its source over exact
rationals.  `fdtrc` is the upper tail of the F-distribution
(`scipy.special.fdtrc`), supplied as a parameter since it is a
transcendental function; the F statistic itself is computed exactly.
The degenerate branches in which scipy emits a warning and returns `nan`
(a zero-length group, constant input) are the points where a rational
division by zero occurs here.  With fewer than two groups scipy raises
`TypeError` before any computation. -/
def f_oneway (fdtrc : ℤ → ℤ → ℚ → ℚ) (samples : List (List ℤ)) :
    Except AnovaError (ℚ × ℚ) :=
  if samples.length < 2 then .error .insufficientGroups
  else
    let alldata : List ℚ := samples.flatten.map (fun x : ℤ => (x : ℚ))
    let bign : ℕ := alldata.length
    let offset : ℚ := alldata.sum / bign
    let centered : List ℚ := alldata.map (fun x => x - offset)
    let normalized_ss : ℚ := centered.sum ^ 2 / bign
    let sstot : ℚ := (centered.map (fun x => x ^ 2)).sum - normalized_ss
    let ssbn0 : ℚ := (samples.map (fun s =>
        ((s.map (fun x : ℤ => (x : ℚ) - offset)).sum) ^ 2 / (s.length : ℚ))).sum
    let ssbn : ℚ := ssbn0 - normalized_ss
    let sswn : ℚ := sstot - ssbn
    let dfbn : ℤ := (samples.length : ℤ) - 1
    let dfwn : ℤ := (bign : ℤ) - (samples.length : ℤ)
    let msb : ℚ := ssbn / (dfbn : ℚ)
    let msw : ℚ := sswn / (dfwn : ℚ)
    let f : ℚ := msb / msw
    .ok (f, fdtrc dfbn dfwn f)

/-- Python `round` to the nearest integer, ties going to the even
integer (banker's rounding). -/
def roundHalfEven (q : ℚ) : ℤ :=
  if q - ⌊q⌋ < 1 / 2 then ⌊q⌋
  else if (1 : ℚ) / 2 < q - ⌊q⌋ then ⌊q⌋ + 1
  else if Even ⌊q⌋ then ⌊q⌋ else ⌊q⌋ + 1

/-- Python `round(x, 3)` over exact rationals. -/
def pyRound3 (q : ℚ) : ℚ := (roundHalfEven (q * 1000) : ℚ) / 1000

/-- `anova` of var_stats.py (lines 11-48): group the rows, drop the small
categories, run `f_oneway` on the remaining sample lists (in dict order)
and return the rounded F statistic and p-value. -/
def anova (fdtrc : ℤ → ℤ → ℚ → ℚ) (rows : List Row) (min_sample_size : ℕ) :
    Except AnovaError (ℚ × ℚ) :=
  match f_oneway fdtrc ((anovaCategoriesFiltered rows min_sample_size).map Prod.snd) with
  | .error e => .error e
  | .ok fp => .ok (pyRound3 fp.1, pyRound3 fp.2)

/-- One row of the summary table produced by
`statsmodels...pairwise_tukeyhsd`: the two group labels, the mean
difference, adjusted p-value, confidence bounds and the reject flag. -/
structure TukeyRow where
  group1 : String
  group2 : String
  meandiff : ℚ
  p_adj : ℚ
  lower : ℚ
  upper : ℚ
  reject : Bool
deriving DecidableEq

/-- All index pairs `(i, j)` with `i < j` over a list, in row-major
order: models `np.triu_indices(k, 1)`, through which statsmodels
enumerates the group pairs of the Tukey test. -/
def pairsOf : List String → List (String × String)
  | [] => []
  | x :: xs => xs.map (fun y => (x, y)) ++ pairsOf xs

/-- `np.unique` over a list of labels: the distinct values in ascending
order.  statsmodels' `MultiComparison` computes `groupsunique` this
way. -/
def npUnique (l : List String) : List String :=
  l.dedup.mergeSort (fun a b => decide (a ≤ b))

/-- `pairwise_tukeyhsd(endog, groups, alpha=0.05)` followed by reading
its summary table: one `TukeyRow` per unordered pair of distinct group
labels, enumerated over the sorted unique labels in row-major order.
`stat` computes the numeric columns and the reject flag of one pair from
the flat `(label, value)` data; it stands for the studentized-range
computation of statsmodels, which is a deterministic function of the
data and the pair. -/
def pairwise_tukeyhsd (stat : List (String × ℤ) → String → String → ℚ × ℚ × ℚ × ℚ × Bool)
    (flat : List (String × ℤ)) : List TukeyRow :=
  let gu := npUnique (flat.map Prod.fst)
  (pairsOf gu).map (fun p =>
    let r := stat flat p.1 p.2
    ⟨p.1, p.2, r.1, r.2.1, r.2.2.1, r.2.2.2.1, r.2.2.2.2⟩)

/-- The `flat_df` rows of `tukey_test` (var_stats.py lines 82-86): the
filtered categories flattened to `(label, value)` pairs, categories in
dict order, values in list order. -/
def tukeyFlat (rows : List Row) (min_sample_size : ℕ) : List (String × ℤ) :=
  (tukeyCategoriesFiltered rows min_sample_size).flatMap
    (fun kv => kv.2.map (fun a => (kv.1, a)))

/-- `tukey_test` of var_stats.py (lines 50-96): run the pairwise test on
the flattened filtered groups, then keep only the rows whose `reject`
column is `True` (line 94), preserving table order. -/
def tukey_test (stat : List (String × ℤ) → String → String → ℚ × ℚ × ℚ × ℚ × Bool)
    (rows : List Row) (min_sample_size : ℕ) : List TukeyRow :=
  (pairwise_tukeyhsd stat (tukeyFlat rows min_sample_size)).filter (fun r => r.reject)

/-- Failures of the `embedding_clustering` pipeline, named by their
trigger conditions.  In the Python source all three surface as library
`ValueError`s out of scikit-learn's input validation: an empty input
array, a ragged (inhomogeneous) list of vectors, and — in scikit-learn
1.2 and later — a sample count not exceeding the default t-SNE
perplexity of 30. -/
inductive ClusterError
  | emptyInput
  | dimensionMismatch
  | perplexityTooLarge
deriving DecidableEq

/-- `sklearn.manifold.TSNE(n_components=2, random_state=...)
.fit_transform(X)` at its interface: input validation as performed by
scikit-learn (empty input, ragged rows, and the `perplexity must be less
than n_samples` check of scikit-learn ≥ 1.2 with the default perplexity
of 30), then a deterministic embedding of the rows into the plane.
`impl` is the t-SNE optimizer as a function of the seed actually used
and the data; `entropy` stands for the fresh randomness that would be
drawn when `random_state` is `none`. -/
def TSNE_fit_transform (impl : ℕ → List (List ℚ) → List (ℚ × ℚ))
    (random_state : Option ℕ) (entropy : ℕ) (X : List (List ℚ)) :
    Except ClusterError (List (ℚ × ℚ)) :=
  match X with
  | [] => .error .emptyInput
  | v₀ :: rest =>
      if rest.any (fun v => v.length != v₀.length) then .error .dimensionMismatch
      else if X.length ≤ 30 then .error .perplexityTooLarge
      else .ok (impl (random_state.getD entropy) X)

/-- The contract of a density-based clustering labelling with a minimum
cluster size: every label other than the noise label `-1` is carried by
at least `min_cluster_size` points. -/
def ValidClustering (min_cluster_size : ℕ) (labels : List ℤ) : Prop :=
  ∀ l ∈ labels, l ≠ -1 → min_cluster_size ≤ labels.count l

/-- `hdbscan.HDBSCAN(min_cluster_size=m).fit_predict`: a deterministic
labelling function of the minimum cluster size and the points. -/
def hdbscan_fit_predict (impl : ℕ → List (ℚ × ℚ) → List ℤ)
    (min_cluster_size : ℕ) (pts : List (ℚ × ℚ)) : List ℤ :=
  impl min_cluster_size pts

/-- The dictionary returned by `embedding_clustering`. -/
structure ClusterOutput where
  ids : List ℕ
  x_axis : List ℚ
  y_axis : List ℚ
  labels : List ℤ
deriving DecidableEq

/-- `embedding_clustering` of var_stats.py (lines 98-137): split the
fetched rows into ids and embeddings, run t-SNE with `n_components=2,
random_state=42`, cluster the projected points with HDBSCAN at
`min_cluster_size=10`, and return the parallel arrays. -/
def embedding_clustering (tsneImpl : ℕ → List (List ℚ) → List (ℚ × ℚ))
    (hdbImpl : ℕ → List (ℚ × ℚ) → List ℤ) (entropy : ℕ)
    (result : List (ℕ × List ℚ)) : Except ClusterError ClusterOutput :=
  let ids := result.map Prod.fst
  let article_embeddings := result.map Prod.snd
  match TSNE_fit_transform tsneImpl (some 42) entropy article_embeddings with
  | .error e => .error e
  | .ok tsne_proj =>
      let labels := hdbscan_fit_predict hdbImpl 10 tsne_proj
      .ok ⟨ids, tsne_proj.map Prod.fst, tsne_proj.map Prod.snd, labels⟩

/-- Failures of the centroid operation. -/
inductive CentroidError
  | emptyInput
  | dimensionMismatch
deriving DecidableEq

/-- Modelled from the spec: `var_stats.vector_centroid` is invoked by
`do_vector_centroid` (src/mcp-server/app.py line 293) but its definition
is missing from the sources; this follows §4.5 (CentroidEngine) of the
specification: input an ordered list of equal-length vectors (one per
fetched row), output their coordinate-wise arithmetic mean, failing with
`EmptyInputError` on zero records and `DimensionMismatchError` on
vectors of unequal length. -/
def vector_centroid (vectors : List (List ℚ)) : Except CentroidError (List ℚ) :=
  match vectors with
  | [] => .error .emptyInput
  | v₀ :: rest =>
      if rest.any (fun v => v.length != v₀.length) then .error .dimensionMismatch
      else .ok ((List.range v₀.length).map (fun j =>
        (vectors.map (fun v => v.getD j 0)).sum / (vectors.length : ℚ)))

/-- First-match lookup of a key in an entry list; used to state what the
dict built by the grouping loop holds at each key. -/
def lookupList (k : String) : List (String × List ℤ) → List ℤ
  | [] => []
  | (k', vs) :: rest => if k' = k then vs else lookupList k rest

/-- The samples the grouping loop stores for category `k`: the coerced
values of the non-NULL rows labelled `k`, in row order. -/
def groupValues (rows : List Row) (k : String) : List ℤ :=
  rows.filterMap (fun r => if r.1 = k then r.2.map pyInt else none)

/-- The raw (pre-coercion) values of the non-NULL rows labelled `k`, in
row order. -/
def rawValues (rows : List Row) (k : String) : List ℚ :=
  rows.filterMap (fun r => if r.1 = k then r.2 else none)

/-- Number of retained (non-NULL) samples of category `k` among the
rows. -/
def retainedCount (rows : List Row) (k : String) : ℕ :=
  rows.countP (fun r => decide (r.1 = k) && r.2.isSome)

/-- The per-group summary a one-way ANOVA depends on: sample count, sum
and sum of squares (over `ℚ`). -/
def statsOf (s : List ℤ) : ℕ × ℚ × ℚ :=
  (s.length, (s.map (fun x : ℤ => (x : ℚ))).sum, (s.map (fun x : ℤ => ((x : ℚ)) ^ 2)).sum)

/-- The filtered grouping with each sample list summarised by
`statsOf`; the F computation factors through this. -/
def taggedStats (rows : List Row) (m : ℕ) : List (String × (ℕ × ℚ × ℚ)) :=
  (anovaCategoriesFiltered rows m).map (fun kv => (kv.1, statsOf kv.2))

/-- Closed form of `f_oneway` over the per-group summaries: the F
statistic written as a function of each group's count, sum and sum of
squares.  `f_oneway_eq_closed` proves it equal to the transcription. -/
def FClosed (fdtrc : ℤ → ℤ → ℚ → ℚ) (st : List (ℕ × ℚ × ℚ)) :
    Except AnovaError (ℚ × ℚ) :=
  if st.length < 2 then .error .insufficientGroups
  else
    let k : ℕ := st.length
    let bign : ℕ := (st.map (fun t => t.1)).sum
    let sx : ℚ := (st.map (fun t => t.2.1)).sum
    let sxx : ℚ := (st.map (fun t => t.2.2)).sum
    let offset : ℚ := sx / (bign : ℚ)
    let csum : ℚ := sx - (bign : ℚ) * offset
    let normalized_ss : ℚ := csum ^ 2 / (bign : ℚ)
    let sstot : ℚ := (sxx - 2 * offset * sx + (bign : ℚ) * offset ^ 2) - normalized_ss
    let ssbn : ℚ :=
      (st.map (fun t => (t.2.1 - (t.1 : ℚ) * offset) ^ 2 / (t.1 : ℚ))).sum - normalized_ss
    let sswn : ℚ := sstot - ssbn
    let dfbn : ℤ := (k : ℤ) - 1
    let dfwn : ℤ := (bign : ℤ) - (k : ℤ)
    let f : ℚ := (ssbn / (dfbn : ℚ)) / (sswn / (dfwn : ℚ))
    .ok (f, fdtrc dfbn dfwn f)

/-! ### Lemmas on the grouping loop -/

theorem mem_addSample_fst (k k' : String) (v : ℤ) (G : List (String × List ℤ)) :
    k' ∈ (addSample k v G).map Prod.fst ↔ k' ∈ G.map Prod.fst ∨ k' = k := by
  induction G with
  | nil => simp [addSample]
  | cons p rest ih =>
    obtain ⟨k₀, vs⟩ := p
    by_cases h : k₀ = k
    · subst h
      simp [addSample]
      tauto
    · simp [addSample, h, ih]
      tauto

theorem addSample_fst_nodup (k : String) (v : ℤ) (G : List (String × List ℤ))
    (h : (G.map Prod.fst).Nodup) : ((addSample k v G).map Prod.fst).Nodup := by
  induction G with
  | nil => simp [addSample]
  | cons p rest ih =>
    obtain ⟨k₀, vs⟩ := p
    simp only [List.map_cons, List.nodup_cons] at h
    by_cases hk : k₀ = k
    · subst hk
      simpa [addSample, List.nodup_cons] using h
    · simp only [addSample, if_neg hk, List.map_cons, List.nodup_cons]
      refine ⟨?_, ih h.2⟩
      rw [mem_addSample_fst]
      rintro (hmem | rfl)
      · exact h.1 hmem
      · exact hk rfl

theorem lookupList_addSample (k k' : String) (v : ℤ) (G : List (String × List ℤ)) :
    lookupList k' (addSample k v G) =
      if k' = k then lookupList k' G ++ [v] else lookupList k' G := by
  induction G with
  | nil =>
    by_cases h : k' = k
    · subst h; simp [addSample, lookupList]
    · have h' : ¬ k = k' := fun e => h e.symm
      simp [addSample, lookupList, h, h']
  | cons p rest ih =>
    obtain ⟨k₀, vs⟩ := p
    by_cases h0 : k₀ = k
    · subst h0
      by_cases h1 : k₀ = k'
      · subst h1
        simp [addSample, lookupList]
      · have h1' : ¬ k' = k₀ := fun e => h1 e.symm
        simp [addSample, lookupList, h1, h1']
    · by_cases h1 : k₀ = k'
      · subst h1
        have h2 : ¬ k₀ = k := h0
        simp [addSample, lookupList, h0, h2]
      · have h1' : ¬ k' = k₀ := fun e => h1 e.symm
        simp [addSample, lookupList, h0, h1, h1', ih]

theorem groupValues_nil (k : String) : groupValues [] k = [] := rfl

theorem groupValues_cons_none (a : String) (rest : List Row) (k : String) :
    groupValues ((a, none) :: rest) k = groupValues rest k := by
  simp only [groupValues, List.filterMap_cons]
  by_cases h : a = k <;> simp [h, Option.map]

theorem groupValues_cons_some (a : String) (q : ℚ) (rest : List Row) (k : String) :
    groupValues ((a, some q) :: rest) k =
      if a = k then pyInt q :: groupValues rest k else groupValues rest k := by
  by_cases h : a = k <;> simp [groupValues, List.filterMap_cons, h, Option.map]

theorem anovaCollect_cons_none (G : List (String × List ℤ)) (a : String) (rest : List Row) :
    anovaCollect G ((a, none) :: rest) = anovaCollect G rest := rfl

theorem anovaCollect_cons_some (G : List (String × List ℤ)) (a : String) (q : ℚ)
    (rest : List Row) :
    anovaCollect G ((a, some q) :: rest) = anovaCollect (addSample a (pyInt q) G) rest := rfl

theorem lookupList_anovaCollect (rows : List Row) (G : List (String × List ℤ)) (k : String) :
    lookupList k (anovaCollect G rows) = lookupList k G ++ groupValues rows k := by
  induction rows generalizing G with
  | nil => simp [anovaCollect, groupValues]
  | cons r rest ih =>
    obtain ⟨a, ov⟩ := r
    match ov with
    | none =>
      rw [anovaCollect_cons_none, ih, groupValues_cons_none]
    | some q =>
      rw [anovaCollect_cons_some, ih, lookupList_addSample, groupValues_cons_some]
      by_cases h : a = k
      · simp [h, List.append_assoc]
      · have h' : ¬ k = a := fun e => h e.symm
        simp [h, h']

theorem mem_keys_anovaCollect (rows : List Row) (G : List (String × List ℤ)) (k : String) :
    k ∈ (anovaCollect G rows).map Prod.fst ↔
      k ∈ G.map Prod.fst ∨ groupValues rows k ≠ [] := by
  induction rows generalizing G with
  | nil => simp [anovaCollect, groupValues]
  | cons r rest ih =>
    obtain ⟨a, ov⟩ := r
    match ov with
    | none =>
      rw [anovaCollect_cons_none, ih, groupValues_cons_none]
    | some q =>
      rw [anovaCollect_cons_some, ih, mem_addSample_fst, groupValues_cons_some]
      by_cases h : a = k
      · simp [h]
      · have h' : ¬ k = a := fun e => h e.symm
        simp [h, h']

theorem keys_nodup_anovaCollect (rows : List Row) (G : List (String × List ℤ))
    (h : (G.map Prod.fst).Nodup) : ((anovaCollect G rows).map Prod.fst).Nodup := by
  induction rows generalizing G with
  | nil => exact h
  | cons r rest ih =>
    obtain ⟨a, ov⟩ := r
    match ov with
    | none => rw [anovaCollect_cons_none]; exact ih G h
    | some q =>
      rw [anovaCollect_cons_some]
      exact ih _ (addSample_fst_nodup _ _ _ h)

theorem mem_of_nodup_keys (G : List (String × List ℤ)) (h : (G.map Prod.fst).Nodup)
    (k : String) (vs : List ℤ) :
    (k, vs) ∈ G ↔ k ∈ G.map Prod.fst ∧ lookupList k G = vs := by
  induction G with
  | nil => simp
  | cons p rest ih =>
    obtain ⟨a, b⟩ := p
    simp only [List.map_cons, List.nodup_cons] at h
    by_cases hk : a = k
    · subst hk
      simp only [List.mem_cons, List.map_cons, lookupList, if_pos rfl, Prod.mk.injEq,
        true_and, true_or]
      constructor
      · rintro (⟨rfl⟩ | hmem)
        · exact rfl
        · exact absurd (List.mem_map_of_mem Prod.fst hmem) h.1
      · rintro rfl
        exact Or.inl rfl
    · have hk' : ¬ k = a := fun e => hk e.symm
      simp only [List.mem_cons, List.map_cons, lookupList, if_neg hk, Prod.mk.injEq,
        ih h.2]
      constructor
      · rintro (⟨e, -⟩ | hmem)
        · exact absurd e hk'
        · exact ⟨Or.inr hmem.1, hmem.2⟩
      · rintro ⟨ha | hmem, hl⟩
        · exact absurd ha hk'
        · exact Or.inr ⟨hmem, hl⟩

theorem anovaCategories_keys_nodup (rows : List Row) :
    ((anovaCategories rows).map Prod.fst).Nodup :=
  keys_nodup_anovaCollect rows [] (by simp)

theorem lookupList_anovaCategories (rows : List Row) (k : String) :
    lookupList k (anovaCategories rows) = groupValues rows k := by
  rw [anovaCategories, lookupList_anovaCollect]; rfl

theorem mem_keys_anovaCategories (rows : List Row) (k : String) :
    k ∈ (anovaCategories rows).map Prod.fst ↔ groupValues rows k ≠ [] := by
  rw [anovaCategories, mem_keys_anovaCollect]
  simp

theorem mem_anovaCategories (rows : List Row) (k : String) (vs : List ℤ) :
    (k, vs) ∈ anovaCategories rows ↔ groupValues rows k ≠ [] ∧ vs = groupValues rows k := by
  rw [mem_of_nodup_keys _ (anovaCategories_keys_nodup rows), mem_keys_anovaCategories,
    lookupList_anovaCategories]
  constructor
  · rintro ⟨h1, rfl⟩; exact ⟨h1, rfl⟩
  · rintro ⟨h1, rfl⟩; exact ⟨h1, rfl⟩

theorem mem_anovaCategoriesFiltered (rows : List Row) (m : ℕ) (k : String) (vs : List ℤ) :
    (k, vs) ∈ anovaCategoriesFiltered rows m ↔
      vs = groupValues rows k ∧ m < vs.length := by
  rw [anovaCategoriesFiltered, List.mem_filter, mem_anovaCategories]
  constructor
  · rintro ⟨⟨-, rfl⟩, hlen⟩
    exact ⟨rfl, by simpa using hlen⟩
  · rintro ⟨rfl, hlen⟩
    refine ⟨⟨?_, rfl⟩, by simpa using hlen⟩
    intro hnil
    rw [hnil] at hlen
    simp at hlen

theorem groupValues_length (rows : List Row) (k : String) :
    (groupValues rows k).length = retainedCount rows k := by
  induction rows with
  | nil => rfl
  | cons r rest ih =>
    obtain ⟨a, ov⟩ := r
    match ov with
    | none =>
      rw [groupValues_cons_none, ih]
      simp [retainedCount, List.countP_cons]
    | some q =>
      rw [groupValues_cons_some]
      by_cases h : a = k
      · subst h
        rw [if_pos rfl]
        simp only [List.length_cons, ih, retainedCount, List.countP_cons]
        simp
      · rw [if_neg h, ih]
        simp [retainedCount, List.countP_cons, h]

theorem mem_keys_anovaCategoriesFiltered (rows : List Row) (m : ℕ) (k : String) :
    k ∈ (anovaCategoriesFiltered rows m).map Prod.fst ↔ m < retainedCount rows k := by
  constructor
  · intro h
    obtain ⟨⟨k', vs⟩, hmem, rfl⟩ := List.mem_map.1 h
    obtain ⟨rfl, hlen⟩ := (mem_anovaCategoriesFiltered rows m _ vs).1 hmem
    rwa [← groupValues_length]
  · intro h
    refine List.mem_map.2 ⟨(k, groupValues rows k), ?_, rfl⟩
    exact (mem_anovaCategoriesFiltered rows m k _).2 ⟨rfl, by rwa [groupValues_length]⟩

theorem tukeyCategoriesFiltered_eq_anova (rows : List Row) (m : ℕ) :
    tukeyCategoriesFiltered rows m = anovaCategoriesFiltered rows m := rfl

/-! ### Permutation invariance of the grouped statistics -/

theorem groupValues_perm {rows₁ rows₂ : List Row} (h : rows₁.Perm rows₂) (k : String) :
    (groupValues rows₁ k).Perm (groupValues rows₂ k) :=
  h.filterMap _

theorem statsOf_congr_perm {s₁ s₂ : List ℤ} (h : s₁.Perm s₂) : statsOf s₁ = statsOf s₂ := by
  unfold statsOf
  rw [h.length_eq, (h.map _).sum_eq, (h.map _).sum_eq]

theorem anovaCategoriesFiltered_keys_nodup (rows : List Row) (m : ℕ) :
    ((anovaCategoriesFiltered rows m).map Prod.fst).Nodup :=
  ((List.filter_sublist _).map Prod.fst).nodup (anovaCategories_keys_nodup rows)

theorem taggedStats_keys (rows : List Row) (m : ℕ) :
    (taggedStats rows m).map Prod.fst = (anovaCategoriesFiltered rows m).map Prod.fst := by
  simp [taggedStats, List.map_map, Function.comp]

theorem taggedStats_nodup (rows : List Row) (m : ℕ) : (taggedStats rows m).Nodup :=
  List.Nodup.of_map Prod.fst
    (by rw [taggedStats_keys]; exact anovaCategoriesFiltered_keys_nodup rows m)

theorem mem_taggedStats (rows : List Row) (m : ℕ) (k : String) (st : ℕ × ℚ × ℚ) :
    (k, st) ∈ taggedStats rows m ↔
      m < retainedCount rows k ∧ st = statsOf (groupValues rows k) := by
  unfold taggedStats
  rw [List.mem_map]
  constructor
  · rintro ⟨⟨k', vs⟩, hmem, he⟩
    have hk : k' = k := congrArg Prod.fst he
    have hst : statsOf vs = st := congrArg Prod.snd he
    subst hk
    obtain ⟨hv, hlen⟩ := (mem_anovaCategoriesFiltered rows m k' vs).1 hmem
    subst hv
    rw [← groupValues_length]
    exact ⟨hlen, hst.symm⟩
  · rintro ⟨hcount, rfl⟩
    refine ⟨(k, groupValues rows k), ?_, rfl⟩
    exact (mem_anovaCategoriesFiltered rows m k _).2 ⟨rfl, by rwa [groupValues_length]⟩

theorem retainedCount_perm {rows₁ rows₂ : List Row} (h : rows₁.Perm rows₂) (k : String) :
    retainedCount rows₁ k = retainedCount rows₂ k := by
  rw [← groupValues_length, ← groupValues_length]
  exact (groupValues_perm h k).length_eq

theorem taggedStats_perm {rows₁ rows₂ : List Row} (h : rows₁.Perm rows₂) (m : ℕ) :
    (taggedStats rows₁ m).Perm (taggedStats rows₂ m) := by
  rw [List.perm_ext_iff_of_nodup (taggedStats_nodup rows₁ m) (taggedStats_nodup rows₂ m)]
  rintro ⟨k, st⟩
  rw [mem_taggedStats, mem_taggedStats, retainedCount_perm h k,
    statsOf_congr_perm (groupValues_perm h k)]

/-! ### The F statistic as a function of per-group summaries -/

theorem sum_map_sub_const (l : List ℚ) (c : ℚ) :
    (l.map (fun x => x - c)).sum = l.sum - (l.length : ℚ) * c := by
  induction l with
  | nil => simp
  | cons a t ih =>
    simp only [List.map_cons, List.sum_cons, ih, List.length_cons]
    push_cast
    ring

theorem sq_sum_map_sub_const (l : List ℚ) (c : ℚ) :
    ((l.map (fun x => x - c)).map (fun x => x ^ 2)).sum =
      (l.map (fun x => x ^ 2)).sum - 2 * c * l.sum + (l.length : ℚ) * c ^ 2 := by
  induction l with
  | nil => simp
  | cons a t ih =>
    simp only [List.map_cons, List.sum_cons, ih, List.length_cons]
    push_cast
    ring

theorem flatten_cast_length (gs : List (List ℤ)) :
    (gs.flatten.map (fun x : ℤ => (x : ℚ))).length =
      ((gs.map statsOf).map (fun t => t.1)).sum := by
  rw [List.length_map, List.length_flatten, List.map_map]
  exact congrArg List.sum (List.map_congr_left (fun s _ => rfl))

theorem flatten_cast_sum (gs : List (List ℤ)) :
    (gs.flatten.map (fun x : ℤ => (x : ℚ))).sum =
      ((gs.map statsOf).map (fun t => t.2.1)).sum := by
  rw [List.map_flatten, List.sum_flatten, List.map_map, List.map_map]
  exact congrArg List.sum (List.map_congr_left (fun s _ => rfl))

theorem flatten_cast_sq_sum (gs : List (List ℤ)) :
    ((gs.flatten.map (fun x : ℤ => (x : ℚ))).map (fun x => x ^ 2)).sum =
      ((gs.map statsOf).map (fun t => t.2.2)).sum := by
  rw [List.map_map, List.map_flatten, List.sum_flatten, List.map_map, List.map_map]
  exact congrArg List.sum (List.map_congr_left (fun s _ => rfl))

theorem ssbn0_eq (gs : List (List ℤ)) (c : ℚ) :
    (gs.map (fun s =>
        ((s.map (fun x : ℤ => (x : ℚ) - c)).sum) ^ 2 / (s.length : ℚ))).sum =
      ((gs.map statsOf).map (fun t => (t.2.1 - (t.1 : ℚ) * c) ^ 2 / (t.1 : ℚ))).sum := by
  rw [List.map_map]
  refine congrArg List.sum (List.map_congr_left ?_)
  intro s hs
  show ((s.map (fun x : ℤ => (x : ℚ) - c)).sum) ^ 2 / (s.length : ℚ)
      = ((statsOf s).2.1 - ((statsOf s).1 : ℚ) * c) ^ 2 / ((statsOf s).1 : ℚ)
  have h1 : s.map (fun x : ℤ => (x : ℚ) - c)
      = (s.map (fun x : ℤ => (x : ℚ))).map (fun x => x - c) := by
    rw [List.map_map]
    exact List.map_congr_left (fun x _ => rfl)
  rw [h1, sum_map_sub_const, List.length_map]
  rfl

theorem f_oneway_eq_closed (fdtrc : ℤ → ℤ → ℚ → ℚ) (gs : List (List ℤ)) :
    f_oneway fdtrc gs = FClosed fdtrc (gs.map statsOf) := by
  have hlen : (gs.map statsOf).length = gs.length := List.length_map _ _
  by_cases hk : gs.length < 2
  · simp [f_oneway, FClosed, hlen, hk]
  · simp only [f_oneway, FClosed, hlen, if_neg hk]
    rw [sum_map_sub_const, sq_sum_map_sub_const, ssbn0_eq,
      flatten_cast_length, flatten_cast_sum, flatten_cast_sq_sum]

theorem FClosed_perm (fdtrc : ℤ → ℤ → ℚ → ℚ) {st₁ st₂ : List (ℕ × ℚ × ℚ)}
    (h : st₁.Perm st₂) : FClosed fdtrc st₁ = FClosed fdtrc st₂ := by
  have hlen : st₁.length = st₂.length := h.length_eq
  have h1 : (st₁.map (fun t => t.1)).sum = (st₂.map (fun t => t.1)).sum :=
    (h.map _).sum_eq
  have h2 : (st₁.map (fun t => t.2.1)).sum = (st₂.map (fun t => t.2.1)).sum :=
    (h.map _).sum_eq
  have h3 : (st₁.map (fun t => t.2.2)).sum = (st₂.map (fun t => t.2.2)).sum :=
    (h.map _).sum_eq
  have h4 : (st₁.map (fun t =>
      (t.2.1 - (t.1 : ℚ) * (((st₂.map (fun t => t.2.1)).sum) / (((st₂.map (fun t => t.1)).sum : ℕ) : ℚ))) ^ 2
        / (t.1 : ℚ))).sum =
      (st₂.map (fun t =>
      (t.2.1 - (t.1 : ℚ) * (((st₂.map (fun t => t.2.1)).sum) / (((st₂.map (fun t => t.1)).sum : ℕ) : ℚ))) ^ 2
        / (t.1 : ℚ))).sum :=
    (h.map _).sum_eq
  simp only [FClosed, hlen, h1, h2, h3, h4]

theorem anovaSamples_statsOf (rows : List Row) (m : ℕ) :
    ((anovaCategoriesFiltered rows m).map Prod.snd).map statsOf =
      (taggedStats rows m).map Prod.snd := by
  simp [taggedStats, List.map_map, Function.comp]

/-! ### Order of the Tukey comparison table -/

theorem mem_pairsOf_fst {l : List String} {p : String × String} (h : p ∈ pairsOf l) :
    p.1 ∈ l := by
  induction l with
  | nil => simp [pairsOf] at h
  | cons x xs ih =>
    simp only [pairsOf, List.mem_append, List.mem_map] at h
    rcases h with ⟨y, hy, rfl⟩ | h
    · simp
    · simp [ih h]

theorem pairsOf_pairwise {l : List String} (h : l.Pairwise (· < ·)) :
    (pairsOf l).Pairwise
      (fun a b => a.1 < b.1 ∨ (a.1 = b.1 ∧ a.2 < b.2)) := by
  induction l with
  | nil => simp [pairsOf]
  | cons x xs ih =>
    rw [List.pairwise_cons] at h
    obtain ⟨hx, hxs⟩ := h
    simp only [pairsOf]
    rw [List.pairwise_append]
    refine ⟨?_, ih hxs, ?_⟩
    · rw [List.pairwise_map]
      exact hxs.imp (fun hab => Or.inr ⟨rfl, hab⟩)
    · rintro a ha b hb
      obtain ⟨y, hy, rfl⟩ := List.mem_map.1 ha
      exact Or.inl (hx _ (mem_pairsOf_fst hb))

theorem npUnique_nodup (l : List String) : (npUnique l).Nodup :=
  (List.mergeSort_perm l.dedup _).nodup_iff.2 (List.nodup_dedup l)

theorem npUnique_strict_sorted (l : List String) : (npUnique l).Pairwise (· < ·) := by
  have hs : (npUnique l).Pairwise (· ≤ ·) := List.sorted_mergeSort' l.dedup
  exact (hs.and (npUnique_nodup l)).imp (fun hab => lt_of_le_of_ne hab.1 hab.2)

/-! ### Truncation toward zero -/

theorem pyInt_of_nonneg {q : ℚ} (h : 0 ≤ q) : pyInt q = ⌊q⌋ := by
  rw [pyInt, Rat.floor_def]
  exact Int.tdiv_eq_ediv (Rat.num_nonneg.2 h) (Int.ofNat_nonneg q.den)

theorem pyInt_of_nonpos {q : ℚ} (h : q ≤ 0) : pyInt q = ⌈q⌉ := by
  have h1 : pyInt q = -pyInt (-q) := by
    rw [pyInt, pyInt, Rat.neg_num, Rat.neg_den, Int.neg_tdiv, neg_neg]
  rw [h1, pyInt_of_nonneg (neg_nonneg.2 h), Int.floor_neg, neg_neg]

theorem rawValues_cons_none (a : String) (rest : List Row) (k : String) :
    rawValues ((a, none) :: rest) k = rawValues rest k := by
  simp only [rawValues, List.filterMap_cons]
  by_cases h : a = k <;> simp [h]

theorem rawValues_cons_some (a : String) (q : ℚ) (rest : List Row) (k : String) :
    rawValues ((a, some q) :: rest) k =
      if a = k then q :: rawValues rest k else rawValues rest k := by
  by_cases h : a = k <;> simp [rawValues, List.filterMap_cons, h]

theorem groupValues_eq_rawValues_map (rows : List Row) (k : String) :
    groupValues rows k = (rawValues rows k).map pyInt := by
  induction rows with
  | nil => rfl
  | cons r rest ih =>
    obtain ⟨a, ov⟩ := r
    match ov with
    | none => rw [groupValues_cons_none, rawValues_cons_none, ih]
    | some q =>
      rw [groupValues_cons_some, rawValues_cons_some]
      by_cases h : a = k
      · simp [h, ih]
      · simp [h, ih]

/-! ### Claim theorems -/

/-- C1: the centroid operation (`do_vector_centroid` backed by the
spec-modelled `vector_centroid`) maps every non-empty list of
equal-length vectors to a single vector of the same dimensionality whose
entries are the coordinate-wise arithmetic means of the inputs (stated
multiplicatively: `n * c_j` equals the sum of the j-th coordinates); in
particular it maps `[[1,0],[0,1]]` to `[1/2, 1/2]` and `[[1,2],[3,4]]`
to `[2,3]`. -/
theorem centroid_mean :
    (∀ (vectors : List (List ℚ)) (d : ℕ), vectors ≠ [] →
      (∀ v ∈ vectors, v.length = d) →
      ∃ c, vector_centroid vectors = .ok c ∧ c.length = d ∧
        ∀ j, j < d → (vectors.length : ℚ) * c.getD j 0 =
          (vectors.map (fun v => v.getD j 0)).sum) ∧
    vector_centroid [[1, 0], [0, 1]] = .ok [1 / 2, 1 / 2] ∧
    vector_centroid [[1, 2], [3, 4]] = .ok [2, 3] := by
  refine ⟨?_, ?_, ?_⟩
  · intro vectors d hne hlen
    match vectors, hne with
    | v₀ :: rest, _ =>
      have h0 : v₀.length = d := hlen v₀ (by simp)
      have hany : rest.any (fun v => v.length != v₀.length) = false := by
        rw [List.any_eq_false]
        intro v hv
        simp [hlen v (List.mem_cons_of_mem _ hv), h0]
      refine ⟨(List.range v₀.length).map (fun j =>
          (((v₀ :: rest).map (fun v => v.getD j 0)).sum / (((v₀ :: rest).length : ℕ) : ℚ))),
          ?_, ?_, ?_⟩
      · simp [vector_centroid, hany]
      · simp [h0]
      · intro j hj
        have hn : (((v₀ :: rest).length : ℕ) : ℚ) ≠ 0 := by
          have hp : (0 : ℚ) < ((v₀ :: rest).length : ℚ) := by
            exact_mod_cast Nat.succ_pos rest.length
          exact ne_of_gt hp
        have hj' : j < ((List.range v₀.length).map (fun j =>
            (((v₀ :: rest).map (fun v => v.getD j 0)).sum /
              (((v₀ :: rest).length : ℕ) : ℚ)))).length := by
          simpa [h0] using hj
        rw [List.getD_eq_getElem _ _ hj']
        simp only [List.getElem_map, List.getElem_range]
        rw [mul_comm, div_mul_cancel₀ _ hn]
  · norm_num [vector_centroid, List.range_succ]
  · norm_num [vector_centroid, List.range_succ]

/-- C1 witness: the general centroid theorem applied at the concrete
input `[[1,0],[0,1]]` with dimension 2. -/
theorem centroid_mean_witness :
    ∃ c, vector_centroid [[(1 : ℚ), 0], [0, 1]] = .ok c ∧ c.length = 2 ∧
      ∀ j, j < 2 → (([[(1 : ℚ), 0], [0, 1]].length : ℚ)) * c.getD j 0 =
        ([[(1 : ℚ), 0], [0, 1]].map (fun v => v.getD j 0)).sum :=
  centroid_mean.1 [[(1 : ℚ), 0], [0, 1]] 2 (by simp) (by decide)

/-- C2: the grouping step shared by `anova` and `tukey_test` retains
exactly the categories whose count of non-NULL samples is strictly
greater than `min_sample_size`; in particular a category with exactly
`min_sample_size` retained samples is excluded and one with
`min_sample_size + 1` retained samples is kept. -/
theorem group_filter_boundary (rows : List Row) (min_sample_size : ℕ) (k : String) :
    (k ∈ (anovaCategoriesFiltered rows min_sample_size).map Prod.fst ↔
      min_sample_size < retainedCount rows k) ∧
    (k ∈ (tukeyCategoriesFiltered rows min_sample_size).map Prod.fst ↔
      min_sample_size < retainedCount rows k) := by
  refine ⟨mem_keys_anovaCategoriesFiltered rows _ k, ?_⟩
  rw [tukeyCategoriesFiltered_eq_anova]
  exact mem_keys_anovaCategoriesFiltered rows _ k

/-- C3: whenever fewer than 2 categories survive extraction and
filtering, `anova` surfaces the insufficient-groups error (the
`TypeError` scipy's `f_oneway` raises for fewer than two inputs) instead
of returning a numeric result. -/
theorem anova_insufficient_groups (fdtrc : ℤ → ℤ → ℚ → ℚ) (rows : List Row) (m : ℕ)
    (h : (anovaCategoriesFiltered rows m).length < 2) :
    anova fdtrc rows m = .error .insufficientGroups := by
  have hcond : ((anovaCategoriesFiltered rows m).map Prod.snd).length < 2 := by
    rw [List.length_map]; exact h
  have hf : f_oneway fdtrc ((anovaCategoriesFiltered rows m).map Prod.snd) =
      .error .insufficientGroups := by
    unfold f_oneway
    rw [if_pos hcond]
  unfold anova
  rw [hf]

/-- C3 witness: the spec scenario with categories A (3 samples), B
(4 samples), C (2 samples) and `min_sample_size = 3` keeps only B, and
`anova` reports the insufficient-groups error. -/
theorem anova_insufficient_groups_witness :
    anova (fun _ _ _ => 0)
      [("A", some 1), ("A", some 2), ("A", some 3),
       ("B", some 1), ("B", some 2), ("B", some 3), ("B", some 4),
       ("C", some 1), ("C", some 2)] 3 = .error .insufficientGroups :=
  anova_insufficient_groups _ _ _ (by decide)

/-- C9: `anova` and `tukey_test` build extensionally identical filtered
groupings: the dictionaries they construct from the same rows and
`min_sample_size` are equal entry for entry, before and after
filtering. -/
theorem anova_tukey_extraction_agree (rows : List Row) (m : ℕ) :
    tukeyCategories rows = anovaCategories rows ∧
    tukeyCategoriesFiltered rows m = anovaCategoriesFiltered rows m :=
  ⟨rfl, rfl⟩

/-- C8: every sample list stored by the (anova and tukey) grouping step
is the image of the raw non-NULL column values under `pyInt`, and
`pyInt` is truncation toward zero — floor on nonnegative values, ceiling
on nonpositive ones — so `35.9` is stored as `35` and `-0.5` as `0`. -/
theorem extraction_truncates_toward_zero :
    (∀ (rows : List Row) (m : ℕ) (k : String) (vs : List ℤ),
        (k, vs) ∈ anovaCategoriesFiltered rows m → vs = (rawValues rows k).map pyInt) ∧
    (∀ (rows : List Row) (m : ℕ) (k : String) (vs : List ℤ),
        (k, vs) ∈ tukeyCategoriesFiltered rows m → vs = (rawValues rows k).map pyInt) ∧
    (∀ q : ℚ, 0 ≤ q → pyInt q = ⌊q⌋) ∧
    (∀ q : ℚ, q ≤ 0 → pyInt q = ⌈q⌉) ∧
    pyInt (359 / 10) = 35 ∧ pyInt (-(1 / 2)) = 0 := by
  have hmem : ∀ (rows : List Row) (m : ℕ) (k : String) (vs : List ℤ),
      (k, vs) ∈ anovaCategoriesFiltered rows m → vs = (rawValues rows k).map pyInt := by
    intro rows m k vs hv
    obtain ⟨rfl, -⟩ := (mem_anovaCategoriesFiltered rows m k vs).1 hv
    exact groupValues_eq_rawValues_map rows k
  refine ⟨hmem, ?_, fun q h => pyInt_of_nonneg h, fun q h => pyInt_of_nonpos h, ?_, ?_⟩
  · intro rows m k vs hv
    rw [tukeyCategoriesFiltered_eq_anova] at hv
    exact hmem rows m k vs hv
  · rw [pyInt_of_nonneg (by norm_num)]
    rw [Int.floor_eq_iff]
    norm_num
  · rw [pyInt_of_nonpos (by norm_num)]
    rw [Int.ceil_eq_iff]
    norm_num

/-- C8 witness: the sample-origin part of the truncation theorem applied
to the concrete rows `[("A", some 2), ("A", some 3)]` with
`min_sample_size = 0`. -/
theorem extraction_truncates_toward_zero_witness :
    [(2 : ℤ), 3] = (rawValues [("A", some 2), ("A", some 3)] "A").map pyInt :=
  extraction_truncates_toward_zero.1 [("A", some 2), ("A", some 3)] 0 "A" [2, 3] (by decide)

/-- C10: `anova` is invariant under permutation of its input rows: for
permuted row lists the same F statistic and p-value (hence the same
rounded result or the same error) are produced, for every tail function
and every `min_sample_size`. -/
theorem anova_permutation_invariant (fdtrc : ℤ → ℤ → ℚ → ℚ) {rows₁ rows₂ : List Row}
    (h : rows₁.Perm rows₂) (m : ℕ) :
    anova fdtrc rows₁ m = anova fdtrc rows₂ m := by
  have htag := (taggedStats_perm h m).map Prod.snd
  have hstats : (((anovaCategoriesFiltered rows₁ m).map Prod.snd).map statsOf).Perm
      (((anovaCategoriesFiltered rows₂ m).map Prod.snd).map statsOf) := by
    rw [anovaSamples_statsOf, anovaSamples_statsOf]
    exact htag
  have hf : f_oneway fdtrc ((anovaCategoriesFiltered rows₁ m).map Prod.snd)
      = f_oneway fdtrc ((anovaCategoriesFiltered rows₂ m).map Prod.snd) := by
    rw [f_oneway_eq_closed, f_oneway_eq_closed]
    exact FClosed_perm fdtrc hstats
  unfold anova
  rw [hf]

/-- C10 witness: the permutation-invariance theorem applied to two
concrete permuted row lists. -/
theorem anova_permutation_invariant_witness :
    anova (fun _ _ _ => 0)
      [("A", some 1), ("A", some 2), ("B", some 5), ("B", some 7)] 0 =
    anova (fun _ _ _ => 0)
      [("B", some 5), ("A", some 1), ("B", some 7), ("A", some 2)] 0 :=
  anova_permutation_invariant (fun _ _ _ => 0) (by decide) 0

/-- C4: every comparison row returned by `tukey_test` has
`reject = true`, and the returned rows are ordered lexicographically by
`(group1, group2)` ascending, for every statistics kernel, row list and
`min_sample_size`. -/
theorem tukey_reject_and_sorted
    (stat : List (String × ℤ) → String → String → ℚ × ℚ × ℚ × ℚ × Bool)
    (rows : List Row) (m : ℕ) :
    (tukey_test stat rows m).all (fun r => r.reject) = true ∧
    (tukey_test stat rows m).Pairwise
      (fun a b => a.group1 < b.group1 ∨ (a.group1 = b.group1 ∧ a.group2 < b.group2)) := by
  unfold tukey_test
  constructor
  · rw [List.all_eq_true]
    intro r hr
    exact (List.mem_filter.1 hr).2
  · refine List.Pairwise.sublist (List.filter_sublist _) ?_
    simp only [pairwise_tukeyhsd]
    rw [List.pairwise_map]
    exact (pairsOf_pairwise (npUnique_strict_sorted _)).imp (fun hab => hab)

/-- C5: `embedding_clustering` reports the dimension-mismatch error
whenever two input vectors differ in length, and the empty-input error
on zero records; in both cases the caller receives an error value, not a
default result. -/
theorem clustering_typed_errors (tsneImpl : ℕ → List (List ℚ) → List (ℚ × ℚ))
    (hdbImpl : ℕ → List (ℚ × ℚ) → List ℤ) (entropy : ℕ) (result : List (ℕ × List ℚ)) :
    (result = [] →
      embedding_clustering tsneImpl hdbImpl entropy result = .error .emptyInput) ∧
    (∀ u v, u ∈ result.map Prod.snd → v ∈ result.map Prod.snd → u.length ≠ v.length →
      embedding_clustering tsneImpl hdbImpl entropy result = .error .dimensionMismatch) := by
  constructor
  · rintro rfl
    rfl
  · intro u v hu hv hne
    simp only [embedding_clustering, TSNE_fit_transform]
    cases hX : result.map Prod.snd with
    | nil =>
      rw [hX] at hu
      simp at hu
    | cons v₀ rest =>
      rw [hX] at hu hv
      have hany : rest.any (fun w => w.length != v₀.length) = true := by
        rw [List.any_eq_true]
        by_cases h0 : u.length = v₀.length
        · have hvr : v ∈ rest := by
            rcases List.mem_cons.1 hv with rfl | hr
            · exact absurd h0 hne
            · exact hr
          exact ⟨v, hvr, by
            rw [bne_iff_ne]
            exact fun e => hne (h0.trans e.symm)⟩
        · have hur : u ∈ rest := by
            rcases List.mem_cons.1 hu with rfl | hr
            · exact absurd rfl h0
            · exact hr
          exact ⟨u, hur, by rw [bne_iff_ne]; exact h0⟩
      simp [hany]

/-- C5 witness: the error theorem applied to the empty input and to a
concrete two-record input with vectors of lengths 2 and 1. -/
theorem clustering_typed_errors_witness :
    embedding_clustering (fun _ X => X.map (fun _ => ((0 : ℚ), (0 : ℚ))))
      (fun _ pts => pts.map (fun _ => (-1 : ℤ))) 0 [] = .error .emptyInput ∧
    embedding_clustering (fun _ X => X.map (fun _ => ((0 : ℚ), (0 : ℚ))))
      (fun _ pts => pts.map (fun _ => (-1 : ℤ))) 0
      [(1, [(0 : ℚ), 0]), (2, [(0 : ℚ)])] = .error .dimensionMismatch :=
  ⟨(clustering_typed_errors _ _ 0 []).1 rfl,
   (clustering_typed_errors _ _ 0 [(1, [(0 : ℚ), 0]), (2, [(0 : ℚ)])]).2
     [(0 : ℚ), 0] [(0 : ℚ)] (by simp) (by simp) (by decide)⟩

/-- C6 counterexample: a concrete input of 3 records with equal vector
lengths, on which the claim demands success with all labels `-1`, is in
fact rejected by the projection step: with the default t-SNE perplexity
of 30, scikit-learn (≥ 1.2) requires more than 30 samples, so the call
errors instead of succeeding. -/
theorem clustering_small_input_cex :
    ([((1 : ℕ), [(0 : ℚ), 0]), (2, [0, 1]), (3, [1, 0])].length < 10) ∧
    embedding_clustering (fun _ X => X.map (fun _ => ((0 : ℚ), (0 : ℚ))))
      (fun _ pts => pts.map (fun _ => (-1 : ℤ))) 0
      [((1 : ℕ), [(0 : ℚ), 0]), (2, [0, 1]), (3, [1, 0])] =
      .error .perplexityTooLarge :=
  ⟨by decide, rfl⟩

/-- C6 amended: on fewer than 10 records the operation never returns a
successful labelling — the projection step's validation rejects any
input of at most 30 records (empty, ragged, or below the default
perplexity), and any labelling satisfying the HDBSCAN
minimum-cluster-size-10 contract over fewer than 10 points would consist
entirely of the noise label `-1`. -/
theorem clustering_small_input_amended (tsneImpl : ℕ → List (List ℚ) → List (ℚ × ℚ))
    (hdbImpl : ℕ → List (ℚ × ℚ) → List ℤ) (entropy : ℕ) (result : List (ℕ × List ℚ))
    (h : result.length < 10) :
    (∃ e, embedding_clustering tsneImpl hdbImpl entropy result = .error e) ∧
    (∀ labels : List ℤ, labels.length = result.length → ValidClustering 10 labels →
      ∀ l ∈ labels, l = -1) := by
  constructor
  · simp only [embedding_clustering, TSNE_fit_transform]
    cases hX : result.map Prod.snd with
    | nil => exact ⟨.emptyInput, rfl⟩
    | cons v₀ rest =>
      by_cases hany : rest.any (fun w => w.length != v₀.length)
      · exact ⟨.dimensionMismatch, by simp [hany]⟩
      · have hlen29 : rest.length ≤ 29 := by
          have hlm : (result.map Prod.snd).length = result.length := List.length_map _ _
          rw [hX] at hlm
          simp only [List.length_cons] at hlm
          omega
        exact ⟨.perplexityTooLarge, by simp [hany, hlen29]⟩
  · intro labels hlen hvalid l hl
    by_contra hne
    have hcount := hvalid l hl hne
    have hle := List.count_le_length l labels
    omega

/-- C6 amended witness: the amended theorem applied at a concrete
3-record input. -/
theorem clustering_small_input_amended_witness :
    ∃ e, embedding_clustering (fun _ X => X.map (fun _ => ((0 : ℚ), (0 : ℚ))))
      (fun _ pts => pts.map (fun _ => (-1 : ℤ))) 0
      [((1 : ℕ), [(0 : ℚ), 0]), (2, [0, 1]), (3, [1, 0])] = .error e :=
  (clustering_small_input_amended _ _ 0
    [((1 : ℕ), [(0 : ℚ), 0]), (2, [0, 1]), (3, [1, 0])] (by decide)).1

/-- C7: `embedding_clustering` is deterministic: because the projection
is seeded with the fixed `random_state = 42`, the ambient randomness
argument never influences the output, so two calls on identical rows
agree. -/
theorem clustering_deterministic (tsneImpl : ℕ → List (List ℚ) → List (ℚ × ℚ))
    (hdbImpl : ℕ → List (ℚ × ℚ) → List ℤ) (entropy₁ entropy₂ : ℕ)
    (result : List (ℕ × List ℚ)) :
    embedding_clustering tsneImpl hdbImpl entropy₁ result =
      embedding_clustering tsneImpl hdbImpl entropy₂ result := rfl

end VarStats
